import Mathlib

/-!
Verification development for the hotel city-tax ledger.

The repository contains two variants of the same browser form component
("strict" and "lenient").  Both keep a list of amount-input rows
(`inputs`, each `{ id, value }`), a formatted result (`{ number, currency }`),
an error message string, and a result-visibility flag.  The operations are
the React event handlers `handleInputChange`, `handleInputBlur` (strict
variant only), `addInput`, `removeInput`, `handleCalculation` and
`handleReset` (strict variant only).

Modelling conventions (shallow embedding):
* JavaScript numbers are modelled as exact rationals (`ℚ`).  The literal
  `0.05` is modelled as the exact decimal `5 / 100`.  IEEE-754 rounding,
  negative zero, `Infinity` and `NaN` values are outside the rational
  model: `jsParseFloat` returns `none` where JS `parseFloat` returns `NaN`,
  and an `"Infinity"` prefix (unproducible by the input pattern) is also
  mapped to `none`.  `toFixed`'s exponential branch for magnitudes ≥ 10^21
  is not modelled (numbers are always rendered with all their digits).
* `Intl.NumberFormat('de-DE', { style: 'currency', currency: 'EUR' })`
  is modelled by `formatNumberDeDE`: round to two fraction digits
  half-away-from-zero, group the integer digits in threes with `'.'`,
  use `','` as the decimal separator.  The component concatenates only
  the `integer`/`group`/`decimal`/`fraction` parts of `formatToParts`,
  so a minus sign would be dropped; the model does the same.
* JS whitespace (for `trim` and `parseFloat` prefix skipping) is modelled
  by the common whitespace code points; exotic Unicode space classes are
  omitted (no entry text produced by the handlers contains them).
-/

/-- `\d` of the JS regex and the digit class used by `parseFloat`:
exactly the characters `'0'`–`'9'`. -/
def isDigitC (c : Char) : Bool := 48 ≤ c.toNat && c.toNat ≤ 57

/-- Numeric value of a digit character. -/
def digitVal (c : Char) : Nat := c.toNat - 48

/-- The digit character for a value `d < 10`. -/
def digitChar10 (d : Nat) : Char := Char.ofNat (48 + d)

/-- JS whitespace, as used by `String.prototype.trim` and by
`parseFloat`'s leading-whitespace skipping (common code points). -/
def isWs (c : Char) : Bool :=
  c.toNat = 9 || c.toNat = 10 || c.toNat = 11 || c.toNat = 12 ||
  c.toNat = 13 || c.toNat = 32 || c.toNat = 160

/-- `value.trim() === ''`: every character is whitespace. -/
def isBlank (s : String) : Bool := s.data.all isWs

/-- `str.replace(pat, repl)` with one-character string arguments replaces
only the FIRST occurrence. -/
def replaceFirst : List Char → Char → Char → List Char
  | [], _, _ => []
  | c :: cs, a, b => if c = a then b :: cs else c :: replaceFirst cs a b

/-- `input.value.replace(',', '.')` — the sanitization applied before
every `parseFloat` call in the component. -/
def sanitize (s : String) : String := String.mk (replaceFirst s.data ',' '.')

/-- Consume a maximal run of decimal digits, folding them onto an
accumulator; returns (accumulated value, number of digits consumed, rest). -/
def takeDigits : List Char → Nat → Nat → Nat × Nat × List Char
  | [], acc, cnt => (acc, cnt, [])
  | c :: cs, acc, cnt =>
    if isDigitC c then takeDigits cs (10 * acc + digitVal c) (cnt + 1)
    else (acc, cnt, c :: cs)

/-- Optional sign of a JS `StrDecimalLiteral`; `true` means negative. -/
def parseSign : List Char → Bool × List Char
  | [] => (false, [])
  | c :: cs =>
    if c = '-' then (true, cs)
    else if c = '+' then (false, cs)
    else (false, c :: cs)

/-- The unsigned mantissa of a JS `StrDecimalLiteral` prefix:
`digits`, `digits . digits?` or `. digits`; `none` when no digit occurs. -/
def parseUnsigned (cs : List Char) : Option (ℚ × List Char) :=
  let (ip, ic, cs1) := takeDigits cs 0 0
  match cs1 with
  | '.' :: cs2 =>
    let (fp, fc, cs3) := takeDigits cs2 0 0
    if ic = 0 && fc = 0 then none
    else some ((ip : ℚ) + (fp : ℚ) / (10 : ℚ) ^ fc, cs3)
  | _ => if ic = 0 then none else some ((ip : ℚ), cs1)

/-- The optional exponent part `e[+-]?digits`; when no digit follows the
`e`, nothing is consumed (JS longest-valid-prefix rule). -/
def parseExp (cs : List Char) : ℤ × List Char :=
  match cs with
  | [] => (0, [])
  | c :: cs1 =>
    if c = 'e' || c = 'E' then
      let (neg, cs2) := parseSign cs1
      let (e, ec, cs3) := takeDigits cs2 0 0
      if ec = 0 then (0, c :: cs1)
      else ((if neg then -(e : ℤ) else (e : ℤ)), cs3)
    else (0, c :: cs1)

/-- JS `parseFloat`: skip leading whitespace, read the longest prefix that
is a decimal literal (optional sign, mantissa, optional exponent), `none`
for `NaN`.  (IEEE `Infinity` is outside the rational model.) -/
def jsParseFloat (s : String) : Option ℚ :=
  let cs := s.data.dropWhile isWs
  let (neg, cs1) := parseSign cs
  match parseUnsigned cs1 with
  | none => none
  | some (m, cs2) =>
    let (e, _) := parseExp cs2
    some ((if neg then -m else m) * (10 : ℚ) ^ e)

/-- The input regex `^\d*([,.]\d{0,2})?$` of the strict variant's
`handleInputChange`: zero or more digits, optionally followed by a single
comma-or-period and zero to two digits. -/
def matchesAmountPattern (s : String) : Bool :=
  match s.data.dropWhile isDigitC with
  | [] => true
  | c :: cs2 => (c = ',' || c = '.') && cs2.length ≤ 2 && cs2.all isDigitC

/-- Little-endian decimal digits of `n`, with explicit structural fuel
(`n` itself bounds the number of digits). -/
def natDigitsRev : Nat → Nat → List Nat
  | 0, _ => []
  | _ + 1, 0 => []
  | f + 1, n + 1 => ((n + 1) % 10) :: natDigitsRev f ((n + 1) / 10)

/-- Decimal rendering of a natural number (as JS renders integral
numbers): big-endian digit characters, `"0"` for zero. -/
def natRepr (n : Nat) : List Char :=
  if n = 0 then ['0'] else ((natDigitsRev n n).reverse.map digitChar10)

/-- The two mandatory fraction digits of a two-decimal rendering. -/
def pad2 (m : Nat) : List Char := [digitChar10 (m / 10), digitChar10 (m % 10)]

/-- `x.toFixed(2)` (ECMAScript): sign of `x`, then the integer `n`
minimising `|n/100 - |x||` (ties upward) rendered with exactly two
fraction digits and a `'.'` separator. -/
def toFixed2 (x : ℚ) : List Char :=
  let m := (⌊100 * |x| + 1 / 2⌋).toNat
  (if x < 0 then ['-'] else []) ++ natRepr (m / 100) ++ '.' :: pad2 (m % 100)

/-- Rounding to two fraction digits as `Intl.NumberFormat` does by
default (`halfExpand`: half away from zero), scaled by 100. -/
def intlRound2 (x : ℚ) : ℤ :=
  if x < 0 then -⌊100 * (-x) + 1 / 2⌋ else ⌊100 * x + 1 / 2⌋

/-- Insert the de-DE grouping separator `'.'` after every three digits;
input and output are little-endian (reversed) digit lists. -/
def groupAux : List Char → List Char
  | d1 :: d2 :: d3 :: d4 :: rest => d1 :: d2 :: d3 :: '.' :: groupAux (d4 :: rest)
  | l => l

/-- Group big-endian integer digits in threes with `'.'` (de-DE). -/
def groupIntDigits (ds : List Char) : List Char := (groupAux ds.reverse).reverse

/-- The numeric text assembled from the `integer`/`group`/`decimal`/
`fraction` parts of `Intl.NumberFormat('de-DE', …).formatToParts(x)`:
grouped integer digits, `','`, two fraction digits (a minus sign part is
filtered out by the component, hence dropped here). -/
def formatNumberDeDE (x : ℚ) : String :=
  let m := (intlRound2 x).natAbs
  String.mk (groupIntDigits (natRepr (m / 100)) ++ ',' :: pad2 (m % 100))

/-- Does a formatted string end in a comma followed by exactly two
digits (i.e. exactly two fraction digits)? -/
def hasTwoFractionDigits (s : String) : Bool :=
  match s.data.reverse with
  | d1 :: d2 :: c :: _ => isDigitC d1 && isDigitC d2 && c = ','
  | _ => false

/-- One amount row of the form: `{ id, value }` in the `inputs` state. -/
structure AmountEntry where
  id : Nat
  value : String
deriving DecidableEq, Repr

/-- The formatted result parts: `{ number, currency }`. -/
structure CalcResult where
  number : String
  currency : String
deriving DecidableEq, Repr

/-- The component state: `inputs`, the `nextId` ref, `result`, `error`
and `isResultVisible`. -/
structure LedgerState where
  inputs : List AmountEntry
  nextId : Nat
  result : CalcResult
  error : String
  isResultVisible : Bool
deriving DecidableEq, Repr

/-- The initial state of both variants: one blank entry with id 1,
`nextId = 2`, result `{ number: '0.00', currency: '€' }`, no error,
result not visible. -/
def initState : LedgerState :=
  { inputs := [{ id := 1, value := "" }]
    nextId := 2
    result := { number := "0.00", currency := "€" }
    error := ""
    isResultVisible := false }

/-- Error message of the strict variant's blank-entry check. -/
def msgMissing : String :=
  "Bitte füllen Sie alle Felder aus oder entfernen Sie leere Zeilen."

/-- Error message of the invalid/negative-amount check (both variants). -/
def msgInvalid : String :=
  "Bitte stellen Sie sicher, dass alle Beträge gültige, positive Zahlen sind."

/-- The two error kinds of the calculation loop. -/
inductive CalcError where
  | missingAmount
  | invalidAmount
deriving DecidableEq, Repr

/-- The strict variant's calculation loop over the entry values: a blank
value fails with `missingAmount`; a value that does not parse or parses
negative fails with `invalidAmount`; otherwise the parsed values are
summed.  The walk stops at the first failure. -/
def sumStrict : List String → Except CalcError ℚ
  | [] => .ok 0
  | v :: vs =>
    if isBlank v then .error .missingAmount
    else
      match jsParseFloat (sanitize v) with
      | none => .error .invalidAmount
      | some q =>
        if q < 0 then .error .invalidAmount
        else
          match sumStrict vs with
          | .error e => .error e
          | .ok r => .ok (q + r)

/-- The lenient variant's calculation loop: blank values are skipped
(`continue`), otherwise as in the strict loop. -/
def sumLenient : List String → Except CalcError ℚ
  | [] => .ok 0
  | v :: vs =>
    if isBlank v then sumLenient vs
    else
      match jsParseFloat (sanitize v) with
      | none => .error .invalidAmount
      | some q =>
        if q < 0 then .error .invalidAmount
        else
          match sumLenient vs with
          | .error e => .error e
          | .ok r => .ok (q + r)

/-- `addInput` (identical in both variants): append a fresh blank entry
with id `nextId` and increment `nextId`. -/
def addInput (s : LedgerState) : LedgerState :=
  { s with
    inputs := s.inputs ++ [{ id := s.nextId, value := "" }]
    nextId := s.nextId + 1 }

/-- `removeInput` (identical in both variants): remove the entry with the
given id unless only one entry remains. -/
def removeInput (s : LedgerState) (id : Nat) : LedgerState :=
  if 1 < s.inputs.length then
    { s with inputs := s.inputs.filter (fun input => input.id ≠ id) }
  else s

namespace Strict

/-- Strict `handleInputChange`: always hide the result, then store the
new text (and clear the error) only when it matches the input pattern. -/
def handleInputChange (s : LedgerState) (id : Nat) (value : String) :
    LedgerState :=
  let s1 := { s with isResultVisible := false }
  if matchesAmountPattern value then
    { s1 with
      inputs := s1.inputs.map
        (fun input => if input.id == id then { input with value := value } else input)
      error := "" }
  else s1

/-- Strict `handleInputBlur` (normalize-on-commit): find the entry; when
it exists, is non-blank and parses, rewrite its text as
`numericValue.toFixed(2).replace('.', ',')`. -/
def handleInputBlur (s : LedgerState) (id : Nat) : LedgerState :=
  match s.inputs.find? (fun i => i.id == id) with
  | none => s
  | some input =>
    if isBlank input.value then s
    else
      match jsParseFloat (sanitize input.value) with
      | none => s
      | some q =>
        let formattedValue := String.mk (replaceFirst (toFixed2 q) '.' ',')
        { s with
          inputs := s.inputs.map
            (fun i => if i.id == id then { i with value := formattedValue } else i) }

/-- Strict `handleCalculation`: run the strict loop; on failure set the
corresponding message and hide the result (the stored result is not
touched); on success publish `(sum / inputs.length) * 0.05` formatted. -/
def handleCalculation (s : LedgerState) : LedgerState :=
  match sumStrict (s.inputs.map AmountEntry.value) with
  | .error .missingAmount => { s with error := msgMissing, isResultVisible := false }
  | .error .invalidAmount => { s with error := msgInvalid, isResultVisible := false }
  | .ok sum =>
    let finalResultValue := (sum / (s.inputs.length : ℚ)) * (5 / 100)
    { s with
      error := ""
      result := { number := formatNumberDeDE finalResultValue, currency := "€" }
      isResultVisible := true }

/-- Strict `handleReset`: back to one blank entry with id 1, `nextId` 2,
hidden zero-value result, no error. -/
def handleReset (_ : LedgerState) : LedgerState :=
  { inputs := [{ id := 1, value := "" }]
    nextId := 2
    isResultVisible := false
    error := ""
    result := { number := "0.00", currency := "€" } }

end Strict

namespace Lenient

/-- Lenient `handleInputChange`: store the new text unconditionally (no
pattern check) and clear the error; visibility is not touched. -/
def handleInputChange (s : LedgerState) (id : Nat) (value : String) :
    LedgerState :=
  { s with
    inputs := s.inputs.map
      (fun input => if input.id == id then { input with value := value } else input)
    error := "" }

/-- Lenient `handleCalculation`: as the strict one but with the lenient
loop (blank entries skipped, never `missingAmount`). -/
def handleCalculation (s : LedgerState) : LedgerState :=
  match sumLenient (s.inputs.map AmountEntry.value) with
  | .error .missingAmount => { s with error := msgMissing, isResultVisible := false }
  | .error .invalidAmount => { s with error := msgInvalid, isResultVisible := false }
  | .ok sum =>
    let finalResultValue := (sum / (s.inputs.length : ℚ)) * (5 / 100)
    { s with
      error := ""
      result := { number := formatNumberDeDE finalResultValue, currency := "€" }
      isResultVisible := true }

end Lenient

/-- The public operations of the strict variant. -/
inductive SOp where
  | change : Nat → String → SOp
  | blur : Nat → SOp
  | add : SOp
  | remove : Nat → SOp
  | calculate : SOp
  | reset : SOp
deriving DecidableEq, Repr

/-- One strict-variant event. -/
def stepS (s : LedgerState) : SOp → LedgerState
  | .change id v => Strict.handleInputChange s id v
  | .blur id => Strict.handleInputBlur s id
  | .add => addInput s
  | .remove id => removeInput s id
  | .calculate => Strict.handleCalculation s
  | .reset => Strict.handleReset s

/-- A sequence of strict-variant events. -/
def runS (s : LedgerState) (ops : List SOp) : LedgerState := ops.foldl stepS s

/-- The public operations of the lenient variant (no blur, no reset). -/
inductive LOp where
  | change : Nat → String → LOp
  | add : LOp
  | remove : Nat → LOp
  | calculate : LOp
deriving DecidableEq, Repr

/-- One lenient-variant event. -/
def stepL (s : LedgerState) : LOp → LedgerState
  | .change id v => Lenient.handleInputChange s id v
  | .add => addInput s
  | .remove id => removeInput s id
  | .calculate => Lenient.handleCalculation s

/-- A sequence of lenient-variant events. -/
def runL (s : LedgerState) (ops : List LOp) : LedgerState := ops.foldl stepL s

/-- The ids handed out by each `addInput` call along a strict-variant
event sequence, in chronological order. -/
def assignedIds : LedgerState → List SOp → List Nat
  | _, [] => []
  | s, op :: ops =>
    match op with
    | SOp.add => s.nextId :: assignedIds (stepS s SOp.add) ops
    | _ => assignedIds (stepS s op) ops

/-- Parsed numeric contribution of one entry text: blanks (and
unparseable texts) contribute zero. -/
def parsedVal (v : String) : ℚ :=
  if isBlank v then 0 else (jsParseFloat (sanitize v)).getD 0

/-- Does the entry text parse (after comma sanitization) to a
non-negative number?  (Implies non-blank.) -/
def entryOkB (v : String) : Bool :=
  match jsParseFloat (sanitize v) with
  | none => false
  | some q => decide (0 ≤ q)

/-- The specified result value: 5% of the average over all rows. -/
def taxResult (s : LedgerState) : ℚ :=
  ((s.inputs.map (fun e => parsedVal e.value)).sum / (s.inputs.length : ℚ)) * (5 / 100)

/-- A character list whose head (if any) is not a digit; marks where a
digit run must stop. -/
def headNotDigit : List Char → Prop
  | [] => True
  | c :: _ => isDigitC c = false

/-- The structural invariant of a ledger state: at least one entry,
pairwise-distinct entry ids, and every id below the `nextId` counter. -/
def LedgerInv (s : LedgerState) : Prop :=
  s.inputs ≠ [] ∧ (s.inputs.map AmountEntry.id).Nodup ∧
    ∀ e ∈ s.inputs, e.id < s.nextId

/-- In the strict variant every stored entry text matches the input
pattern (enforced by `handleInputChange` and re-established by the
normalizer). -/
def ValidTexts (s : LedgerState) : Prop :=
  ∀ e ∈ s.inputs, matchesAmountPattern e.value = true

/-- Concrete state for the spec example with entries "10" and "20". -/
def exampleTenTwenty : LedgerState :=
  { inputs := [{ id := 1, value := "10" }, { id := 2, value := "20" }]
    nextId := 3
    result := { number := "0.00", currency := "€" }
    error := ""
    isResultVisible := false }

/-- Concrete state for the spec example with entries "5" and a blank. -/
def exampleFiveBlank : LedgerState :=
  { inputs := [{ id := 1, value := "5" }, { id := 2, value := "" }]
    nextId := 3
    result := { number := "0.00", currency := "€" }
    error := ""
    isResultVisible := false }

/-- Concrete state for the spec example with the single entry "abc". -/
def exampleAbc : LedgerState :=
  { inputs := [{ id := 1, value := "abc" }]
    nextId := 2
    result := { number := "0.00", currency := "€" }
    error := ""
    isResultVisible := false }

/-! ### Digit-character facts -/

theorem digitChar10_toNat {d : Nat} (h : d < 10) : (digitChar10 d).toNat = 48 + d := by
  interval_cases d <;> decide

theorem isDigitC_digitChar10 {d : Nat} (h : d < 10) : isDigitC (digitChar10 d) = true := by
  interval_cases d <;> decide

theorem digitVal_digitChar10 {d : Nat} (h : d < 10) : digitVal (digitChar10 d) = d := by
  interval_cases d <;> decide

theorem not_isWs_of_isDigitC {c : Char} (h : isDigitC c = true) : isWs c = false := by
  simp only [isDigitC, Bool.and_eq_true, decide_eq_true_eq] at h
  simp only [isWs, Bool.or_eq_false_iff, decide_eq_false_iff_not]
  omega

theorem ne_of_isDigitC {c : Char} (h : isDigitC c = true) {c' : Char}
    (h' : isDigitC c' = false) : c ≠ c' := by
  intro hc
  rw [hc] at h
  simp [h] at h'

/-! ### Decimal rendering of naturals and its parse value -/

theorem natDigitsRev_lt : ∀ f n, ∀ d ∈ natDigitsRev f n, d < 10 := by
  intro f
  induction f with
  | zero => intro n d hd; simp [natDigitsRev] at hd
  | succ f ih =>
    intro n d hd
    cases n with
    | zero => simp [natDigitsRev] at hd
    | succ m =>
      simp only [natDigitsRev, List.mem_cons] at hd
      rcases hd with h | h
      · omega
      · exact ih _ _ h

theorem ofDigits_natDigitsRev : ∀ f n, n ≤ f → Nat.ofDigits 10 (natDigitsRev f n) = n := by
  intro f
  induction f with
  | zero => intro n hn; interval_cases n; simp [natDigitsRev, Nat.ofDigits]
  | succ f ih =>
    intro n hn
    cases n with
    | zero => simp [natDigitsRev, Nat.ofDigits]
    | succ m =>
      have hdiv : (m + 1) / 10 ≤ f := by
        have := Nat.div_lt_self (Nat.succ_pos m) (by norm_num : 1 < 10)
        omega
      simp only [natDigitsRev, Nat.ofDigits_cons, ih _ hdiv]
      omega

theorem natDigitsRev_ne_nil {f n : Nat} (h1 : 0 < n) (h2 : n ≤ f) :
    natDigitsRev f n ≠ [] := by
  cases f with
  | zero => omega
  | succ f =>
    cases n with
    | zero => omega
    | succ m => simp [natDigitsRev]

theorem natRepr_all_digits (n : Nat) : ∀ c ∈ natRepr n, isDigitC c = true := by
  intro c hc
  by_cases h0 : n = 0
  · simp [natRepr, h0] at hc
    simp [hc]; decide
  · simp only [natRepr, h0, if_false, List.mem_map, List.mem_reverse] at hc
    obtain ⟨d, hd, rfl⟩ := hc
    exact isDigitC_digitChar10 (natDigitsRev_lt n n d hd)

theorem natRepr_ne_nil (n : Nat) : natRepr n ≠ [] := by
  by_cases h0 : n = 0
  · simp [natRepr, h0]
  · simp only [natRepr, h0, if_false]
    intro h
    rw [List.map_eq_nil_iff, List.reverse_eq_nil_iff] at h
    exact natDigitsRev_ne_nil (Nat.pos_of_ne_zero h0) le_rfl h

theorem foldl_digitChar_map :
    ∀ (L : List ℕ), (∀ d ∈ L, d < 10) → ∀ acc : ℕ,
      List.foldl (fun a c => 10 * a + digitVal c) acc (L.map digitChar10) =
        List.foldl (fun a d => 10 * a + d) acc L := by
  intro L
  induction L with
  | nil => intro _ acc; rfl
  | cons d L ih =>
    intro h acc
    simp only [List.map_cons, List.foldl_cons]
    rw [digitVal_digitChar10 (h d (List.mem_cons_self d L))]
    exact ih (fun x hx => h x (List.mem_cons_of_mem d hx)) _

theorem foldl_reverse_ofDigits :
    ∀ (L : List ℕ) (acc : ℕ),
      List.foldl (fun a d => 10 * a + d) acc L.reverse =
        acc * 10 ^ L.length + Nat.ofDigits 10 L := by
  intro L
  induction L with
  | nil => intro acc; simp [Nat.ofDigits]
  | cons d L ih =>
    intro acc
    simp only [List.reverse_cons, List.foldl_append, List.foldl_cons, List.foldl_nil,
      ih acc, Nat.ofDigits_cons, List.length_cons, pow_succ]
    ring

theorem natRepr_foldl (n : Nat) :
    List.foldl (fun a c => 10 * a + digitVal c) 0 (natRepr n) = n := by
  by_cases h0 : n = 0
  · subst h0; decide
  · simp only [natRepr, h0, if_false]
    rw [foldl_digitChar_map ((natDigitsRev n n).reverse)
        (fun d hd => natDigitsRev_lt n n d (List.mem_reverse.mp hd)),
      foldl_reverse_ofDigits, ofDigits_natDigitsRev n n le_rfl]
    simp

/-! ### Digit-run consumption -/

theorem takeDigits_append :
    ∀ (L rest : List Char), (∀ c ∈ L, isDigitC c = true) → headNotDigit rest →
      ∀ acc cnt, takeDigits (L ++ rest) acc cnt =
        (List.foldl (fun a c => 10 * a + digitVal c) acc L, cnt + L.length, rest) := by
  intro L
  induction L with
  | nil =>
    intro rest _ hrest acc cnt
    cases rest with
    | nil => simp [takeDigits]
    | cons c cs =>
      simp only [headNotDigit] at hrest
      simp [takeDigits, hrest]
  | cons c L ih =>
    intro rest hL hrest acc cnt
    have hc : isDigitC c = true := hL c (List.mem_cons_self c L)
    simp only [List.cons_append, takeDigits, hc, if_true, List.foldl_cons, List.append_eq]
    rw [ih rest (fun x hx => hL x (List.mem_cons_of_mem c hx)) hrest]
    simp only [List.length_cons, Prod.mk.injEq, true_and]
    exact ⟨by omega, trivial⟩

/-! ### First-occurrence replacement -/

theorem replaceFirst_not_mem : ∀ (cs : List Char) (a b : Char), a ∉ cs →
    replaceFirst cs a b = cs := by
  intro cs a b
  induction cs with
  | nil => intro _; rfl
  | cons c cs ih =>
    intro h
    have hca : c ≠ a := fun hc => h (hc ▸ List.mem_cons_self c cs)
    simp only [replaceFirst, if_neg hca]
    rw [ih (fun hm => h (List.mem_cons_of_mem c hm))]

theorem replaceFirst_append : ∀ (A : List Char) (a b : Char) (B : List Char), a ∉ A →
    replaceFirst (A ++ a :: B) a b = A ++ b :: B := by
  intro A a b B
  induction A with
  | nil => intro _; simp [replaceFirst]
  | cons c A ih =>
    intro h
    have hca : c ≠ a := fun hc => h (hc ▸ List.mem_cons_self c A)
    simp only [List.cons_append, replaceFirst, if_neg hca, List.append_eq]
    rw [ih (fun hm => h (List.mem_cons_of_mem c hm))]

theorem mem_replaceFirst : ∀ (cs : List Char) (a b c : Char),
    c ∈ replaceFirst cs a b → c ∈ cs ∨ c = b := by
  intro cs a b c
  induction cs with
  | nil => intro h; simp [replaceFirst] at h
  | cons x cs ih =>
    by_cases hx : x = a
    · simp only [replaceFirst, if_pos hx]
      intro h
      rcases List.mem_cons.mp h with h | h
      · right; exact h
      · left; exact List.mem_cons_of_mem x h
    · simp only [replaceFirst, if_neg hx]
      intro h
      rcases List.mem_cons.mp h with h | h
      · left; exact h ▸ List.mem_cons_self x cs
      · rcases ih h with h' | h'
        · left; exact List.mem_cons_of_mem x h'
        · right; exact h'

/-! ### `dropWhile` helpers -/

theorem dropWhile_all_eq_nil {p : Char → Bool} :
    ∀ l : List Char, (∀ c ∈ l, p c = true) → List.dropWhile p l = [] := by
  intro l
  induction l with
  | nil => intro _; rfl
  | cons c cs ih =>
    intro h
    simp only [List.dropWhile_cons, h c (List.mem_cons_self c cs), if_true]
    exact ih fun x hx => h x (List.mem_cons_of_mem c hx)

theorem dropWhile_none_eq_self {p : Char → Bool} :
    ∀ l : List Char, (∀ c ∈ l, p c = false) → List.dropWhile p l = l := by
  intro l
  induction l with
  | nil => intro _; rfl
  | cons c cs ih =>
    intro h
    simp [List.dropWhile_cons, h c (List.mem_cons_self c cs)]

theorem dropWhile_append_all {p : Char → Bool} :
    ∀ (L rest : List Char), (∀ c ∈ L, p c = true) →
      List.dropWhile p (L ++ rest) = List.dropWhile p rest := by
  intro L rest
  induction L with
  | nil => intro _; rfl
  | cons c cs ih =>
    intro h
    simp only [List.cons_append, List.dropWhile_cons, h c (List.mem_cons_self c cs), if_true]
    exact ih fun x hx => h x (List.mem_cons_of_mem c hx)

/-! ### Parsing the canonical two-decimal rendering -/

theorem pad2_all_digits {m : Nat} (h : m < 100) : ∀ c ∈ pad2 m, isDigitC c = true := by
  intro c hc
  have h1 : m / 10 < 10 := by omega
  have h2 : m % 10 < 10 := by omega
  simp only [pad2, List.mem_cons, List.mem_singleton, List.not_mem_nil, or_false] at hc
  rcases hc with rfl | rfl
  · exact isDigitC_digitChar10 h1
  · exact isDigitC_digitChar10 h2

theorem pad2_foldl {m : Nat} (h : m < 100) :
    List.foldl (fun a c => 10 * a + digitVal c) 0 (pad2 m) = m := by
  have h1 : m / 10 < 10 := by omega
  have h2 : m % 10 < 10 := by omega
  simp only [pad2, List.foldl_cons, List.foldl_nil,
    digitVal_digitChar10 h1, digitVal_digitChar10 h2]
  omega

theorem parseSign_cons_digit {c : Char} (h : isDigitC c = true) (t : List Char) :
    parseSign (c :: t) = (false, c :: t) := by
  have h1 : c ≠ '-' := ne_of_isDigitC h (by decide)
  have h2 : c ≠ '+' := ne_of_isDigitC h (by decide)
  simp [parseSign, h1, h2]

theorem jsParseFloat_canonical (M : Nat) :
    jsParseFloat (String.mk (natRepr (M / 100) ++ '.' :: pad2 (M % 100))) =
      some ((M : ℚ) / 100) := by
  obtain ⟨c, t, hct⟩ := List.exists_cons_of_ne_nil (natRepr_ne_nil (M / 100))
  have hall : ∀ x ∈ natRepr (M / 100), isDigitC x = true := natRepr_all_digits _
  have hcd : isDigitC c = true := hall c (by rw [hct]; exact List.mem_cons_self c t)
  have hmod : M % 100 < 100 := Nat.mod_lt _ (by norm_num)
  have hnows : ∀ x ∈ natRepr (M / 100) ++ '.' :: pad2 (M % 100), isWs x = false := by
    intro x hx
    rcases List.mem_append.mp hx with hx | hx
    · exact not_isWs_of_isDigitC (hall x hx)
    · rcases List.mem_cons.mp hx with rfl | hx
      · decide
      · exact not_isWs_of_isDigitC (pad2_all_digits hmod x hx)
  have hdrop : List.dropWhile isWs (natRepr (M / 100) ++ '.' :: pad2 (M % 100)) =
      natRepr (M / 100) ++ '.' :: pad2 (M % 100) := dropWhile_none_eq_self _ hnows
  have htake : takeDigits (natRepr (M / 100) ++ '.' :: pad2 (M % 100)) 0 0 =
      (M / 100, 0 + (natRepr (M / 100)).length, '.' :: pad2 (M % 100)) := by
    rw [takeDigits_append _ _ hall (by simp [headNotDigit]; decide) 0 0, natRepr_foldl]
  have htake2 : takeDigits (pad2 (M % 100)) 0 0 = (M % 100, 0 + 2, ([] : List Char)) := by
    have := takeDigits_append (pad2 (M % 100)) [] (pad2_all_digits hmod) trivial 0 0
    rw [List.append_nil] at this
    rw [this, pad2_foldl hmod]
    rfl
  have hic : (natRepr (M / 100)).length ≠ 0 := by
    intro h
    exact natRepr_ne_nil (M / 100) (List.length_eq_zero.mp h)
  have hsign : parseSign (natRepr (M / 100) ++ '.' :: pad2 (M % 100)) =
      (false, natRepr (M / 100) ++ '.' :: pad2 (M % 100)) := by
    rw [hct]
    exact parseSign_cons_digit hcd _
  have hun : parseUnsigned (natRepr (M / 100) ++ '.' :: pad2 (M % 100)) =
      some (((M / 100 : ℕ) : ℚ) + ((M % 100 : ℕ) : ℚ) / (10 : ℚ) ^ 2, ([] : List Char)) := by
    simp only [parseUnsigned, htake]
    simp only [htake2]
    simp only [Nat.zero_add, hic, if_false]
    norm_num
  simp only [jsParseFloat, hdrop, hsign, hun]
  simp only [parseExp, Bool.false_eq_true, if_false, zpow_zero, mul_one]
  congr 1
  have hdm : ((M / 100 : ℕ) : ℚ) * 100 + ((M % 100 : ℕ) : ℚ) = (M : ℚ) := by
    have h100 := Nat.div_add_mod M 100
    conv_rhs => rw [← h100]
    push_cast
    ring
  field_simp
  linarith [hdm]

/-! ### Facts about `toFixed2` and its re-parse -/

theorem toFixed2_of_nonneg {q : ℚ} (hq : 0 ≤ q) :
    toFixed2 q =
      natRepr ((⌊100 * q + 1 / 2⌋).toNat / 100) ++
        '.' :: pad2 ((⌊100 * q + 1 / 2⌋).toNat % 100) := by
  have h1 : ¬q < 0 := not_lt.mpr hq
  simp [toFixed2, h1, abs_of_nonneg hq]

theorem natRepr_no_dot (n : Nat) : '.' ∉ natRepr n := by
  intro h
  have := natRepr_all_digits n _ h
  simp [isDigitC] at this

theorem natRepr_no_comma (n : Nat) : ',' ∉ natRepr n := by
  intro h
  have := natRepr_all_digits n _ h
  simp [isDigitC] at this

theorem toFixed2_comma {q : ℚ} (hq : 0 ≤ q) :
    replaceFirst (toFixed2 q) '.' ',' =
      natRepr ((⌊100 * q + 1 / 2⌋).toNat / 100) ++
        ',' :: pad2 ((⌊100 * q + 1 / 2⌋).toNat % 100) := by
  rw [toFixed2_of_nonneg hq]
  exact replaceFirst_append _ _ _ _ (natRepr_no_dot _)

theorem sanitize_toFixed2_comma {q : ℚ} (hq : 0 ≤ q) :
    sanitize (String.mk (replaceFirst (toFixed2 q) '.' ',')) =
      String.mk (toFixed2 q) := by
  rw [toFixed2_comma hq, toFixed2_of_nonneg hq]
  simp only [sanitize]
  rw [replaceFirst_append _ _ _ _ (natRepr_no_comma _)]

theorem jsParseFloat_toFixed2 {q : ℚ} (hq : 0 ≤ q) :
    jsParseFloat (sanitize (String.mk (replaceFirst (toFixed2 q) '.' ','))) =
      some (((⌊100 * q + 1 / 2⌋).toNat : ℚ) / 100) := by
  rw [sanitize_toFixed2_comma hq, toFixed2_of_nonneg hq]
  exact jsParseFloat_canonical _

theorem floor_nat_add_half (n : Nat) : ⌊(n : ℚ) + 1 / 2⌋ = (n : ℤ) := by
  rw [Int.floor_eq_iff]
  constructor
  · push_cast; linarith
  · push_cast; linarith

theorem toFixed2_restable (M : Nat) :
    (⌊100 * ((M : ℚ) / 100) + 1 / 2⌋).toNat = M := by
  have h : 100 * ((M : ℚ) / 100) = (M : ℚ) := by
    field_simp
  rw [h, floor_nat_add_half]
  exact Int.toNat_natCast M

theorem matches_toFixed2_comma {q : ℚ} (hq : 0 ≤ q) :
    matchesAmountPattern (String.mk (replaceFirst (toFixed2 q) '.' ',')) = true := by
  rw [toFixed2_comma hq]
  have hmod : (⌊100 * q + 1 / 2⌋).toNat % 100 < 100 := Nat.mod_lt _ (by norm_num)
  simp only [matchesAmountPattern]
  rw [dropWhile_append_all _ _ (natRepr_all_digits _)]
  rw [List.dropWhile_cons]
  have h1 : isDigitC (digitChar10 ((⌊100 * q + 1 / 2⌋).toNat % 100 / 10)) = true :=
    isDigitC_digitChar10 (by omega)
  have h2 : isDigitC (digitChar10 ((⌊100 * q + 1 / 2⌋).toNat % 100 % 10)) = true :=
    isDigitC_digitChar10 (by omega)
  rw [one_div] at h1 h2
  simp [pad2, show isDigitC ',' = false from rfl, h1, h2]

theorem isBlank_toFixed2_comma {q : ℚ} (hq : 0 ≤ q) :
    isBlank (String.mk (replaceFirst (toFixed2 q) '.' ',')) = false := by
  rw [toFixed2_comma hq]
  obtain ⟨c, t, hct⟩ := List.exists_cons_of_ne_nil
    (natRepr_ne_nil ((⌊100 * q + 1 / 2⌋).toNat / 100))
  have hcd : isDigitC c = true :=
    natRepr_all_digits _ c (by rw [hct]; exact List.mem_cons_self c t)
  simp only [isBlank, hct, List.cons_append, List.all_cons]
  rw [not_isWs_of_isDigitC hcd]
  rfl

/-! ### Sign and positivity facts about the parser -/

theorem parseUnsigned_nonneg (cs : List Char) (m : ℚ) (rest : List Char)
    (h : parseUnsigned cs = some (m, rest)) : 0 ≤ m := by
  unfold parseUnsigned at h
  rcases htd : takeDigits cs 0 0 with ⟨ip, ic, cs1⟩
  rw [htd] at h
  simp only at h
  split at h
  · rcases htd2 : takeDigits _ 0 0 with ⟨fp, fc, cs3⟩
    rw [htd2] at h
    simp only at h
    split at h
    · exact absurd h (by simp)
    · simp only [Option.some.injEq, Prod.mk.injEq] at h
      rw [← h.1]
      positivity
  · split at h
    · exact absurd h (by simp)
    · simp only [Option.some.injEq, Prod.mk.injEq] at h
      rw [← h.1]
      positivity

theorem matches_chars (v : String) (hv : matchesAmountPattern v = true) :
    ∀ c ∈ v.data, isDigitC c = true ∨ c = ',' ∨ c = '.' := by
  intro c hc
  have hsplit := List.takeWhile_append_dropWhile isDigitC v.data
  rw [← hsplit] at hc
  rcases List.mem_append.mp hc with hc | hc
  · left
    exact List.mem_takeWhile_imp hc
  · unfold matchesAmountPattern at hv
    rcases hd : v.data.dropWhile isDigitC with _ | ⟨c0, cs2⟩
    · rw [hd] at hc
      simp at hc
    · rw [hd] at hc hv
      simp only [Bool.and_eq_true, Bool.or_eq_true, decide_eq_true_eq] at hv
      rcases List.mem_cons.mp hc with rfl | hc
      · right
        exact hv.1.1
      · left
        exact List.all_eq_true.mp hv.2 c hc

theorem sanitize_chars (v : String) (hv : matchesAmountPattern v = true) :
    ∀ c ∈ (sanitize v).data, isDigitC c = true ∨ c = ',' ∨ c = '.' := by
  intro c hc
  simp only [sanitize] at hc
  rcases mem_replaceFirst _ _ _ _ hc with hm | rfl
  · exact matches_chars v hv c hm
  · right; right; rfl

theorem parse_of_unsigned_chars (l : List Char)
    (hl : ∀ c ∈ l, isDigitC c = true ∨ c = ',' ∨ c = '.') (q : ℚ)
    (hq : jsParseFloat (String.mk l) = some q) : 0 ≤ q := by
  have hnows : ∀ c ∈ l, isWs c = false := by
    intro c hc
    rcases hl c hc with h | h | h
    · exact not_isWs_of_isDigitC h
    · rw [h]; rfl
    · rw [h]; rfl
  have hdrop : List.dropWhile isWs l = l := dropWhile_none_eq_self _ hnows
  have hsign : parseSign l = (false, l) := by
    cases l with
    | nil => rfl
    | cons c0 t =>
      have h0 := hl c0 (List.mem_cons_self c0 t)
      have hminus : c0 ≠ '-' := by
        rcases h0 with h | h | h
        · exact ne_of_isDigitC h (by decide)
        · rw [h]; decide
        · rw [h]; decide
      have hplus : c0 ≠ '+' := by
        rcases h0 with h | h | h
        · exact ne_of_isDigitC h (by decide)
        · rw [h]; decide
        · rw [h]; decide
      simp [parseSign, hminus, hplus]
  unfold jsParseFloat at hq
  rw [show (String.mk l).data = l from rfl, hdrop] at hq
  simp only [hsign] at hq
  rcases hu : parseUnsigned l with _ | ⟨m, cs2⟩
  · rw [hu] at hq
    exact absurd hq (by simp)
  · rw [hu] at hq
    simp only [Bool.false_eq_true, if_false, Option.some.injEq] at hq
    rw [← hq]
    have hm : 0 ≤ m := parseUnsigned_nonneg l m cs2 hu
    have hp : (0 : ℚ) < (10 : ℚ) ^ (parseExp cs2).1 := by positivity
    positivity

theorem parse_sanitize_nonneg (v : String) (hv : matchesAmountPattern v = true)
    (q : ℚ) (hq : jsParseFloat (sanitize v) = some q) : 0 ≤ q := by
  have := sanitize_chars v hv
  have hmk : sanitize v = String.mk (sanitize v).data := rfl
  rw [hmk] at hq
  exact parse_of_unsigned_chars _ this q hq

/-! ### Blank entries never parse -/

theorem jsParseFloat_of_blank (v : String) (h : isBlank v = true) :
    jsParseFloat (sanitize v) = none := by
  have hall : ∀ c ∈ v.data, isWs c = true := List.all_eq_true.mp h
  have hnoc : ',' ∉ v.data := by
    intro hm
    have := hall ',' hm
    simp [isWs] at this
  have hs : (sanitize v).data = v.data := by
    simp only [sanitize]
    rw [replaceFirst_not_mem _ _ _ hnoc]
  unfold jsParseFloat
  rw [hs, dropWhile_all_eq_nil _ hall]
  rfl

theorem entryOkB_not_blank (v : String) (h : entryOkB v = true) : isBlank v = false := by
  by_contra hb
  rw [Bool.not_eq_false] at hb
  unfold entryOkB at h
  rw [jsParseFloat_of_blank v hb] at h
  exact absurd h (by simp)

theorem entryOkB_elim (v : String) (h : entryOkB v = true) :
    ∃ q, jsParseFloat (sanitize v) = some q ∧ 0 ≤ q := by
  unfold entryOkB at h
  rcases hp : jsParseFloat (sanitize v) with _ | q
  · rw [hp] at h
    exact absurd h (by simp)
  · rw [hp] at h
    simp only [decide_eq_true_eq] at h
    exact ⟨q, rfl, h⟩

theorem parsedVal_of_ok (v : String) (h : entryOkB v = true) (q : ℚ)
    (hq : jsParseFloat (sanitize v) = some q) : parsedVal v = q := by
  unfold parsedVal
  rw [entryOkB_not_blank v h]
  simp [hq]

theorem parsedVal_of_blank (v : String) (h : isBlank v = true) : parsedVal v = 0 := by
  unfold parsedVal
  rw [h]
  rfl

/-! ### Characterizing `handleInputBlur` -/

theorem handleInputBlur_none (s : LedgerState) (id : Nat)
    (hfind : s.inputs.find? (fun i => i.id == id) = none) :
    Strict.handleInputBlur s id = s := by
  unfold Strict.handleInputBlur
  rw [hfind]

theorem handleInputBlur_blank (s : LedgerState) (id : Nat) (input : AmountEntry)
    (hfind : s.inputs.find? (fun i => i.id == id) = some input)
    (hb : isBlank input.value = true) :
    Strict.handleInputBlur s id = s := by
  unfold Strict.handleInputBlur
  rw [hfind]
  simp [hb]

theorem handleInputBlur_noparse (s : LedgerState) (id : Nat) (input : AmountEntry)
    (hfind : s.inputs.find? (fun i => i.id == id) = some input)
    (hb : isBlank input.value = false)
    (hp : jsParseFloat (sanitize input.value) = none) :
    Strict.handleInputBlur s id = s := by
  unfold Strict.handleInputBlur
  rw [hfind]
  simp [hb, hp]

theorem handleInputBlur_parse (s : LedgerState) (id : Nat) (input : AmountEntry) (q : ℚ)
    (hfind : s.inputs.find? (fun i => i.id == id) = some input)
    (hb : isBlank input.value = false)
    (hp : jsParseFloat (sanitize input.value) = some q) :
    Strict.handleInputBlur s id =
      { s with inputs := s.inputs.map (fun i =>
          if i.id == id then
            { i with value := String.mk (replaceFirst (toFixed2 q) '.' ',') }
          else i) } := by
  unfold Strict.handleInputBlur
  rw [hfind]
  simp [hb, hp]

theorem map_update_idem (l : List AmountEntry) (id : Nat) (v : String) :
    (l.map (fun i => if i.id == id then { i with value := v } else i)).map
        (fun i => if i.id == id then { i with value := v } else i) =
      l.map (fun i => if i.id == id then { i with value := v } else i) := by
  rw [List.map_map]
  apply List.map_congr_left
  intro i _
  by_cases h : (i.id == id) = true
  · simp [Function.comp, h]
  · simp [Function.comp, h]

theorem find?_map_update (l : List AmountEntry) (id : Nat) (v : String) :
    (l.map (fun i => if i.id == id then { i with value := v } else i)).find?
        (fun i => i.id == id) =
      (l.find? (fun i => i.id == id)).map
        (fun i => if i.id == id then { i with value := v } else i) := by
  have hfg : ((fun i : AmountEntry => i.id == id) ∘ fun i =>
      if i.id == id then { i with value := v } else i) =
      (fun i : AmountEntry => i.id == id) := by
    funext i
    by_cases h : (i.id == id) = true
    · simp [Function.comp, h]
    · simp [Function.comp, h]
  rw [List.find?_map, hfg]

theorem blur_idem (s : LedgerState) (id : Nat) (hs : ValidTexts s) :
    Strict.handleInputBlur (Strict.handleInputBlur s id) id =
      Strict.handleInputBlur s id := by
  rcases hfind : s.inputs.find? (fun i => i.id == id) with _ | input
  · simp only [handleInputBlur_none s id hfind]
  · rcases hb : isBlank input.value with _ | _
    · rcases hp : jsParseFloat (sanitize input.value) with _ | q
      · simp only [handleInputBlur_noparse s id input hfind hb hp]
      · have hmem := List.mem_of_find?_eq_some hfind
        have hq0 : 0 ≤ q := parse_sanitize_nonneg _ (hs input hmem) q hp
        have hpid : (input.id == id) = true := by
          have h' := List.find?_some hfind
          exact h'
        rw [handleInputBlur_parse s id input q hfind hb hp]
        have hfind2 : ((s.inputs.map (fun i =>
            if i.id == id then
              { i with value := String.mk (replaceFirst (toFixed2 q) '.' ',') }
            else i)).find? (fun i => i.id == id)) =
            some { input with value := String.mk (replaceFirst (toFixed2 q) '.' ',') } := by
          rw [find?_map_update, hfind]
          simp only [Option.map_some']
          rw [if_pos hpid]
        have hb2 : isBlank ({ input with
            value := String.mk (replaceFirst (toFixed2 q) '.' ',') }).value = false :=
          isBlank_toFixed2_comma hq0
        have hp2 : jsParseFloat (sanitize ({ input with
            value := String.mk (replaceFirst (toFixed2 q) '.' ',') }).value) =
            some (((⌊100 * q + 1 / 2⌋).toNat : ℚ) / 100) :=
          jsParseFloat_toFixed2 hq0
        rw [handleInputBlur_parse _ id _ _ hfind2 hb2 hp2]
        have hfv2 : String.mk (replaceFirst
            (toFixed2 (((⌊100 * q + 1 / 2⌋).toNat : ℚ) / 100)) '.' ',') =
            String.mk (replaceFirst (toFixed2 q) '.' ',') := by
          have hM0 : (0 : ℚ) ≤ ((⌊100 * q + 1 / 2⌋).toNat : ℚ) / 100 := by positivity
          rw [toFixed2_of_nonneg hM0, toFixed2_restable, toFixed2_of_nonneg hq0]
        rw [hfv2]
        rw [map_update_idem]
    · simp only [handleInputBlur_blank s id input hfind hb]

/-! ### The calculation loops -/

theorem sumStrict_ok : ∀ (vs : List String), (∀ v ∈ vs, entryOkB v = true) →
    sumStrict vs = Except.ok ((vs.map parsedVal).sum) := by
  intro vs
  induction vs with
  | nil => intro _; simp [sumStrict]
  | cons v vs ih =>
    intro h
    have hv : entryOkB v = true := h v (List.mem_cons_self v vs)
    obtain ⟨q, hq, hq0⟩ := entryOkB_elim v hv
    have hbl : isBlank v = false := entryOkB_not_blank v hv
    simp only [sumStrict, hbl, Bool.false_eq_true, if_false, hq]
    rw [if_neg (not_lt.mpr hq0), ih (fun x hx => h x (List.mem_cons_of_mem v hx))]
    simp [parsedVal_of_ok v hv q hq]

theorem sumLenient_ok : ∀ (vs : List String),
    (∀ v ∈ vs, isBlank v = true ∨ entryOkB v = true) →
    sumLenient vs = Except.ok ((vs.map parsedVal).sum) := by
  intro vs
  induction vs with
  | nil => intro _; simp [sumLenient]
  | cons v vs ih =>
    intro h
    have htail := fun x hx => h x (List.mem_cons_of_mem v hx)
    rcases h v (List.mem_cons_self v vs) with hbl | hok
    · simp only [sumLenient, hbl, if_true]
      rw [ih htail]
      simp [parsedVal_of_blank v hbl]
    · obtain ⟨q, hq, hq0⟩ := entryOkB_elim v hok
      have hbl : isBlank v = false := entryOkB_not_blank v hok
      simp only [sumLenient, hbl, Bool.false_eq_true, if_false, hq]
      rw [if_neg (not_lt.mpr hq0), ih htail]
      simp [parsedVal_of_ok v hok q hq]

theorem sumStrict_missing : ∀ (l1 : List String) (e : String) (l2 : List String),
    (∀ v ∈ l1, entryOkB v = true) → isBlank e = true →
    sumStrict (l1 ++ e :: l2) = Except.error CalcError.missingAmount := by
  intro l1 e l2
  induction l1 with
  | nil => intro _ h2; simp [sumStrict, h2]
  | cons v l1 ih =>
    intro h1 h2
    have hv : entryOkB v = true := h1 v (List.mem_cons_self v l1)
    obtain ⟨q, hq, hq0⟩ := entryOkB_elim v hv
    have hbl : isBlank v = false := entryOkB_not_blank v hv
    simp only [List.cons_append, List.append_eq, sumStrict, hbl, Bool.false_eq_true,
      if_false, hq]
    rw [if_neg (not_lt.mpr hq0), ih (fun x hx => h1 x (List.mem_cons_of_mem v hx)) h2]

theorem sumStrict_invalid : ∀ (l1 : List String) (e : String) (l2 : List String),
    (∀ v ∈ l1, entryOkB v = true) → isBlank e = false → entryOkB e = false →
    sumStrict (l1 ++ e :: l2) = Except.error CalcError.invalidAmount := by
  intro l1 e l2
  induction l1 with
  | nil =>
    intro _ h2 h3
    simp only [List.nil_append, sumStrict, h2, Bool.false_eq_true, if_false]
    rcases hp : jsParseFloat (sanitize e) with _ | q
    · rfl
    · unfold entryOkB at h3
      rw [hp] at h3
      simp only [decide_eq_false_iff_not, not_le] at h3
      simp [h3]
  | cons v l1 ih =>
    intro h1 h2 h3
    have hv : entryOkB v = true := h1 v (List.mem_cons_self v l1)
    obtain ⟨q, hq, hq0⟩ := entryOkB_elim v hv
    have hbl : isBlank v = false := entryOkB_not_blank v hv
    simp only [List.cons_append, List.append_eq, sumStrict, hbl, Bool.false_eq_true,
      if_false, hq]
    rw [if_neg (not_lt.mpr hq0), ih (fun x hx => h1 x (List.mem_cons_of_mem v hx)) h2 h3]

theorem sumLenient_invalid : ∀ (vs : List String),
    (∃ v ∈ vs, isBlank v = false ∧ entryOkB v = false) →
    sumLenient vs = Except.error CalcError.invalidAmount := by
  intro vs
  induction vs with
  | nil => intro h; simp at h
  | cons v vs ih =>
    intro h
    by_cases hbv : isBlank v = true
    · simp only [sumLenient, hbv, if_true]
      apply ih
      obtain ⟨w, hw, hwb, hwo⟩ := h
      rcases List.mem_cons.mp hw with rfl | hw
      · rw [hbv] at hwb
        exact absurd hwb (by simp)
      · exact ⟨w, hw, hwb, hwo⟩
    · rw [Bool.not_eq_true] at hbv
      by_cases hov : entryOkB v = true
      · obtain ⟨q, hq, hq0⟩ := entryOkB_elim v hov
        simp only [sumLenient, hbv, Bool.false_eq_true, if_false, hq]
        rw [if_neg (not_lt.mpr hq0)]
        have htail : ∃ w ∈ vs, isBlank w = false ∧ entryOkB w = false := by
          obtain ⟨w, hw, hwb, hwo⟩ := h
          rcases List.mem_cons.mp hw with rfl | hw
          · rw [hov] at hwo
            exact absurd hwo (by simp)
          · exact ⟨w, hw, hwb, hwo⟩
        rw [ih htail]
      · rw [Bool.not_eq_true] at hov
        simp only [sumLenient, hbv, Bool.false_eq_true, if_false]
        rcases hp : jsParseFloat (sanitize v) with _ | q
        · rfl
        · unfold entryOkB at hov
          rw [hp] at hov
          simp only [decide_eq_false_iff_not, not_le] at hov
          simp [hov]

/-! ### Characterizing `handleCalculation` -/

theorem handleCalculation_strict_ok (s : LedgerState)
    (hok : ∀ e ∈ s.inputs, entryOkB e.value = true) :
    Strict.handleCalculation s =
      { s with
        error := ""
        result := { number := formatNumberDeDE (taxResult s), currency := "€" }
        isResultVisible := true } := by
  have hsum : sumStrict (s.inputs.map AmountEntry.value) =
      Except.ok (((s.inputs.map AmountEntry.value).map parsedVal).sum) := by
    apply sumStrict_ok
    intro v hv
    obtain ⟨e, he, rfl⟩ := List.mem_map.mp hv
    exact hok e he
  unfold Strict.handleCalculation
  rw [hsum]
  simp only [taxResult, List.map_map]
  rfl

theorem handleCalculation_lenient_ok (s : LedgerState)
    (hok : ∀ e ∈ s.inputs, isBlank e.value = true ∨ entryOkB e.value = true) :
    Lenient.handleCalculation s =
      { s with
        error := ""
        result := { number := formatNumberDeDE (taxResult s), currency := "€" }
        isResultVisible := true } := by
  have hsum : sumLenient (s.inputs.map AmountEntry.value) =
      Except.ok (((s.inputs.map AmountEntry.value).map parsedVal).sum) := by
    apply sumLenient_ok
    intro v hv
    obtain ⟨e, he, rfl⟩ := List.mem_map.mp hv
    exact hok e he
  unfold Lenient.handleCalculation
  rw [hsum]
  simp only [taxResult, List.map_map]
  rfl

theorem handleCalculation_strict_missing (s : LedgerState)
    (h : sumStrict (s.inputs.map AmountEntry.value) =
      Except.error CalcError.missingAmount) :
    Strict.handleCalculation s = { s with error := msgMissing, isResultVisible := false } := by
  unfold Strict.handleCalculation
  rw [h]

theorem handleCalculation_strict_invalid (s : LedgerState)
    (h : sumStrict (s.inputs.map AmountEntry.value) =
      Except.error CalcError.invalidAmount) :
    Strict.handleCalculation s = { s with error := msgInvalid, isResultVisible := false } := by
  unfold Strict.handleCalculation
  rw [h]

theorem handleCalculation_lenient_invalid (s : LedgerState)
    (h : sumLenient (s.inputs.map AmountEntry.value) =
      Except.error CalcError.invalidAmount) :
    Lenient.handleCalculation s = { s with error := msgInvalid, isResultVisible := false } := by
  unfold Lenient.handleCalculation
  rw [h]

theorem handleCalculation_strict_inputs (s : LedgerState) :
    (Strict.handleCalculation s).inputs = s.inputs ∧
      (Strict.handleCalculation s).nextId = s.nextId := by
  unfold Strict.handleCalculation
  split <;> exact ⟨rfl, rfl⟩

theorem handleCalculation_lenient_inputs (s : LedgerState) :
    (Lenient.handleCalculation s).inputs = s.inputs ∧
      (Lenient.handleCalculation s).nextId = s.nextId := by
  unfold Lenient.handleCalculation
  split <;> exact ⟨rfl, rfl⟩

/-! ### The structural ledger invariant -/

theorem ledgerInv_init : LedgerInv initState := by
  refine ⟨by simp [initState], by simp [initState], ?_⟩
  intro e he
  simp only [initState, List.mem_singleton] at he
  rw [he]
  simp [initState]

theorem ledgerInv_of_eq (s s' : LedgerState) (hi : s'.inputs = s.inputs)
    (hn : s'.nextId = s.nextId) (h : LedgerInv s) : LedgerInv s' := by
  unfold LedgerInv at *
  rw [hi, hn]
  exact h

theorem ledgerInv_map (s : LedgerState) (f : AmountEntry → AmountEntry)
    (hf : ∀ e, (f e).id = e.id) (h : LedgerInv s) (s' : LedgerState)
    (hi : s'.inputs = s.inputs.map f) (hn : s'.nextId = s.nextId) : LedgerInv s' := by
  obtain ⟨h1, h2, h3⟩ := h
  refine ⟨?_, ?_, ?_⟩
  · rw [hi]
    intro h0
    exact h1 (List.map_eq_nil_iff.mp h0)
  · rw [hi, List.map_map]
    have : (AmountEntry.id ∘ f) = AmountEntry.id := funext hf
    rw [this]
    exact h2
  · intro e he
    rw [hi] at he
    obtain ⟨x, hx, rfl⟩ := List.mem_map.mp he
    rw [hn, hf x]
    exact h3 x hx

theorem ledgerInv_addInput (s : LedgerState) (h : LedgerInv s) :
    LedgerInv (addInput s) := by
  obtain ⟨h1, h2, h3⟩ := h
  refine ⟨by simp [addInput], ?_, ?_⟩
  · simp only [addInput, List.map_append, List.map_cons, List.map_nil]
    rw [List.nodup_append]
    refine ⟨h2, List.nodup_singleton _, ?_⟩
    intro a ha hb
    simp only [List.mem_singleton] at hb
    obtain ⟨e, he, rfl⟩ := List.mem_map.mp ha
    have := h3 e he
    omega
  · intro e he
    simp only [addInput, List.mem_append, List.mem_singleton] at he
    rcases he with he | rfl
    · have := h3 e he
      simp only [addInput]
      omega
    · simp [addInput]

theorem len_filter_ne (l : List AmountEntry) (h : (l.map AmountEntry.id).Nodup)
    (id : Nat) : l.length ≤ (l.filter (fun e => e.id ≠ id)).length + 1 := by
  induction l with
  | nil => simp
  | cons e t ih =>
    rw [List.map_cons, List.nodup_cons] at h
    obtain ⟨hnot, hnd⟩ := h
    by_cases he : e.id = id
    · have hall : ∀ x ∈ t, (fun e => decide (e.id ≠ id)) x = true := by
        intro x hx
        simp only [decide_eq_true_eq]
        intro hxid
        apply hnot
        rw [he, ← hxid]
        exact List.mem_map_of_mem AmountEntry.id hx
      have hfil : List.filter (fun e => decide (e.id ≠ id)) (e :: t) =
          List.filter (fun e => decide (e.id ≠ id)) t := by
        rw [List.filter_cons, if_neg (by simp [he])]
      rw [hfil, List.filter_eq_self.mpr hall]
      simp
    · have hfil : List.filter (fun e => decide (e.id ≠ id)) (e :: t) =
          e :: List.filter (fun e => decide (e.id ≠ id)) t := by
        rw [List.filter_cons, if_pos (by simp [he])]
      rw [hfil]
      have h' := ih hnd
      simp only [List.length_cons]
      omega

theorem ledgerInv_removeInput (s : LedgerState) (id : Nat) (h : LedgerInv s) :
    LedgerInv (removeInput s id) := by
  unfold removeInput
  split
  · next hlen =>
    obtain ⟨h1, h2, h3⟩ := h
    refine ⟨?_, ?_, ?_⟩
    · intro h0
      simp only at h0
      have hle := len_filter_ne s.inputs h2 id
      rw [h0] at hle
      simp only [List.length_nil] at hle
      omega
    · simp only
      have hsub : (s.inputs.filter (fun e => e.id ≠ id)).Sublist s.inputs :=
        List.filter_sublist s.inputs
      exact h2.sublist (hsub.map AmountEntry.id)
    · intro e he
      simp only at he
      exact h3 e (List.mem_of_mem_filter he)
  · exact h

theorem ledgerInv_reset (s : LedgerState) : LedgerInv (Strict.handleReset s) := by
  refine ⟨by simp [Strict.handleReset], by simp [Strict.handleReset], ?_⟩
  intro e he
  simp only [Strict.handleReset, List.mem_singleton] at he
  rw [he]
  simp [Strict.handleReset]

theorem handleInputChange_strict_shape (s : LedgerState) (id : Nat) (v : String) :
    (Strict.handleInputChange s id v).inputs = s.inputs ∨
      (Strict.handleInputChange s id v).inputs =
        s.inputs.map (fun input =>
          if input.id == id then { input with value := v } else input) := by
  unfold Strict.handleInputChange
  by_cases h : matchesAmountPattern v = true
  · right
    simp [h]
  · left
    simp [h]

theorem handleInputChange_strict_nextId (s : LedgerState) (id : Nat) (v : String) :
    (Strict.handleInputChange s id v).nextId = s.nextId := by
  unfold Strict.handleInputChange
  by_cases h : matchesAmountPattern v = true
  · simp [h]
  · simp [h]

theorem handleInputBlur_shape (s : LedgerState) (id : Nat) :
    Strict.handleInputBlur s id = s ∨
      ∃ v : String, (Strict.handleInputBlur s id).inputs =
          s.inputs.map (fun i => if i.id == id then { i with value := v } else i) ∧
        (Strict.handleInputBlur s id).nextId = s.nextId ∧
        (Strict.handleInputBlur s id).result = s.result ∧
        (Strict.handleInputBlur s id).error = s.error ∧
        (Strict.handleInputBlur s id).isResultVisible = s.isResultVisible := by
  rcases hfind : s.inputs.find? (fun i => i.id == id) with _ | input
  · left
    exact handleInputBlur_none s id hfind
  · rcases hb : isBlank input.value with _ | _
    · rcases hp : jsParseFloat (sanitize input.value) with _ | q
      · left
        exact handleInputBlur_noparse s id input hfind hb hp
      · right
        refine ⟨String.mk (replaceFirst (toFixed2 q) '.' ','), ?_⟩
        rw [handleInputBlur_parse s id input q hfind hb hp]
        exact ⟨rfl, rfl, rfl, rfl, rfl⟩
    · left
      exact handleInputBlur_blank s id input hfind hb

theorem ledgerInv_stepS (s : LedgerState) (op : SOp) (h : LedgerInv s) :
    LedgerInv (stepS s op) := by
  cases op with
  | change id v =>
    rcases handleInputChange_strict_shape s id v with hs | hs
    · exact ledgerInv_of_eq s _ hs (handleInputChange_strict_nextId s id v) h
    · exact ledgerInv_map s _ (fun e => by by_cases he : (e.id == id) = true <;> simp [he])
        h _ hs (handleInputChange_strict_nextId s id v)
  | blur id =>
    rcases handleInputBlur_shape s id with hs | ⟨v, hi, hn, _, _, _⟩
    · rw [show stepS s (SOp.blur id) = Strict.handleInputBlur s id from rfl, hs]
      exact h
    · exact ledgerInv_map s _ (fun e => by by_cases he : (e.id == id) = true <;> simp [he])
        h _ hi hn
  | add => exact ledgerInv_addInput s h
  | remove id => exact ledgerInv_removeInput s id h
  | calculate =>
    obtain ⟨hi, hn⟩ := handleCalculation_strict_inputs s
    exact ledgerInv_of_eq s _ hi hn h
  | reset => exact ledgerInv_reset s

theorem ledgerInv_runS (ops : List SOp) : ∀ s : LedgerState, LedgerInv s →
    LedgerInv (runS s ops) := by
  induction ops with
  | nil => intro s h; exact h
  | cons op ops ih =>
    intro s h
    rw [show runS s (op :: ops) = runS (stepS s op) ops from rfl]
    exact ih _ (ledgerInv_stepS s op h)

theorem ledgerInv_stepL (s : LedgerState) (op : LOp) (h : LedgerInv s) :
    LedgerInv (stepL s op) := by
  cases op with
  | change id v =>
    exact ledgerInv_map s _ (fun e => by by_cases he : (e.id == id) = true <;> simp [he])
      h _ rfl rfl
  | add => exact ledgerInv_addInput s h
  | remove id => exact ledgerInv_removeInput s id h
  | calculate =>
    obtain ⟨hi, hn⟩ := handleCalculation_lenient_inputs s
    exact ledgerInv_of_eq s _ hi hn h

theorem ledgerInv_runL (ops : List LOp) : ∀ s : LedgerState, LedgerInv s →
    LedgerInv (runL s ops) := by
  induction ops with
  | nil => intro s h; exact h
  | cons op ops ih =>
    intro s h
    rw [show runL s (op :: ops) = runL (stepL s op) ops from rfl]
    exact ih _ (ledgerInv_stepL s op h)

/-! ### Text validity in the strict variant -/

theorem validTexts_init : ValidTexts initState := by
  intro e he
  simp only [initState, List.mem_singleton] at he
  rw [he]
  decide

theorem validTexts_map_update (s : LedgerState) (id : Nat) (v : String)
    (hv : matchesAmountPattern v = true) (h : ValidTexts s) (s' : LedgerState)
    (hi : s'.inputs = s.inputs.map (fun i =>
      if i.id == id then { i with value := v } else i)) : ValidTexts s' := by
  intro e he
  rw [hi] at he
  obtain ⟨x, hx, rfl⟩ := List.mem_map.mp he
  by_cases hxi : (x.id == id) = true
  · simp only [hxi, if_true]
    exact hv
  · simp only [hxi, if_false]
    exact h x hx

theorem validTexts_stepS (s : LedgerState) (op : SOp) (h : ValidTexts s) :
    ValidTexts (stepS s op) := by
  cases op with
  | change id v =>
    rcases hsh : matchesAmountPattern v with _ | _
    · have : (Strict.handleInputChange s id v).inputs = s.inputs := by
        unfold Strict.handleInputChange
        simp [hsh]
      intro e he
      rw [show stepS s (SOp.change id v) = Strict.handleInputChange s id v from rfl,
        this] at he
      exact h e he
    · have : (Strict.handleInputChange s id v).inputs = s.inputs.map (fun i =>
          if i.id == id then { i with value := v } else i) := by
        unfold Strict.handleInputChange
        simp [hsh]
      exact validTexts_map_update s id v hsh h _ this
  | blur id =>
    rcases hfind : s.inputs.find? (fun i => i.id == id) with _ | input
    · rw [show stepS s (SOp.blur id) = Strict.handleInputBlur s id from rfl,
        handleInputBlur_none s id hfind]
      exact h
    · rcases hb : isBlank input.value with _ | _
      · rcases hp : jsParseFloat (sanitize input.value) with _ | q
        · rw [show stepS s (SOp.blur id) = Strict.handleInputBlur s id from rfl,
            handleInputBlur_noparse s id input hfind hb hp]
          exact h
        · have hq0 : 0 ≤ q :=
            parse_sanitize_nonneg _ (h input (List.mem_of_find?_eq_some hfind)) q hp
          have hi := handleInputBlur_parse s id input q hfind hb hp
          exact validTexts_map_update s id _ (matches_toFixed2_comma hq0) h _
            (by rw [show stepS s (SOp.blur id) = Strict.handleInputBlur s id from rfl, hi])
      · rw [show stepS s (SOp.blur id) = Strict.handleInputBlur s id from rfl,
          handleInputBlur_blank s id input hfind hb]
        exact h
  | add =>
    intro e he
    simp only [stepS, addInput, List.mem_append, List.mem_singleton] at he
    rcases he with he | rfl
    · exact h e he
    · rfl
  | remove id =>
    intro e he
    simp only [stepS, removeInput] at he
    split at he
    · exact h e (List.mem_of_mem_filter he)
    · exact h e he
  | calculate =>
    intro e he
    rw [show stepS s SOp.calculate = Strict.handleCalculation s from rfl,
      (handleCalculation_strict_inputs s).1] at he
    exact h e he
  | reset =>
    intro e he
    simp only [stepS, Strict.handleReset, List.mem_singleton] at he
    rw [he]
    decide

theorem validTexts_runS (ops : List SOp) : ∀ s : LedgerState, ValidTexts s →
    ValidTexts (runS s ops) := by
  induction ops with
  | nil => intro s h; exact h
  | cons op ops ih =>
    intro s h
    rw [show runS s (op :: ops) = runS (stepS s op) ops from rfl]
    exact ih _ (validTexts_stepS s op h)

theorem runS_append (s : LedgerState) (ops1 ops2 : List SOp) :
    runS s (ops1 ++ ops2) = runS (runS s ops1) ops2 := by
  unfold runS
  exact List.foldl_append stepS s ops1 ops2

/-! ### Freshly assigned ids -/

theorem stepS_nextId_of_ne (s : LedgerState) (op : SOp) (h1 : op ≠ SOp.add)
    (h2 : op ≠ SOp.reset) : (stepS s op).nextId = s.nextId := by
  cases op with
  | change id v => exact handleInputChange_strict_nextId s id v
  | blur id =>
    rcases handleInputBlur_shape s id with hs | ⟨v, _, hn, _, _, _⟩
    · rw [show stepS s (SOp.blur id) = Strict.handleInputBlur s id from rfl, hs]
    · exact hn
  | add => exact absurd rfl h1
  | remove id =>
    rw [show stepS s (SOp.remove id) = removeInput s id from rfl]
    unfold removeInput
    split <;> rfl
  | calculate => exact (handleCalculation_strict_inputs s).2
  | reset => exact absurd rfl h2

theorem assignedIds_nodup_lb (ops : List SOp) : ∀ s : LedgerState, SOp.reset ∉ ops →
    (assignedIds s ops).Nodup ∧ ∀ x ∈ assignedIds s ops, s.nextId ≤ x := by
  induction ops with
  | nil => intro s _; simp [assignedIds]
  | cons op ops ih =>
    intro s hmem
    have hops : SOp.reset ∉ ops := fun hc => hmem (List.mem_cons_of_mem op hc)
    have hopne : op ≠ SOp.reset := fun hc => hmem (hc ▸ List.mem_cons_self op ops)
    cases op with
    | add =>
      obtain ⟨hn, hlb⟩ := ih (stepS s SOp.add) hops
      have hnext : (stepS s SOp.add).nextId = s.nextId + 1 := rfl
      rw [hnext] at hlb
      refine ⟨List.nodup_cons.mpr ⟨fun hx => ?_, hn⟩, ?_⟩
      · have := hlb _ hx
        omega
      · intro x hx
        rcases List.mem_cons.mp hx with rfl | hx
        · exact le_rfl
        · have := hlb _ hx
          omega
    | reset => exact absurd rfl hopne
    | change id v =>
      obtain ⟨hn, hlb⟩ := ih (stepS s (SOp.change id v)) hops
      rw [stepS_nextId_of_ne s _ (by simp) (by simp)] at hlb
      exact ⟨hn, hlb⟩
    | blur id =>
      obtain ⟨hn, hlb⟩ := ih (stepS s (SOp.blur id)) hops
      rw [stepS_nextId_of_ne s _ (by simp) (by simp)] at hlb
      exact ⟨hn, hlb⟩
    | remove id =>
      obtain ⟨hn, hlb⟩ := ih (stepS s (SOp.remove id)) hops
      rw [stepS_nextId_of_ne s _ (by simp) (by simp)] at hlb
      exact ⟨hn, hlb⟩
    | calculate =>
      obtain ⟨hn, hlb⟩ := ih (stepS s SOp.calculate) hops
      rw [stepS_nextId_of_ne s _ (by simp) (by simp)] at hlb
      exact ⟨hn, hlb⟩

/-! ### Remaining helper lemmas -/

theorem hasTwoFractionDigits_formatNumberDeDE (x : ℚ) :
    hasTwoFractionDigits (formatNumberDeDE x) = true := by
  have h1 : isDigitC (digitChar10 ((intlRound2 x).natAbs % 100 / 10)) = true :=
    isDigitC_digitChar10 (by omega)
  have h2 : isDigitC (digitChar10 ((intlRound2 x).natAbs % 100 % 10)) = true :=
    isDigitC_digitChar10 (by omega)
  simp only [formatNumberDeDE, hasTwoFractionDigits, pad2]
  rw [List.reverse_append]
  simp only [List.reverse_cons, List.reverse_nil, List.nil_append, List.cons_append,
    List.append_assoc]
  simp [h1, h2]

theorem removeInput_single (s : LedgerState) (id : Nat) (h : s.inputs.length = 1) :
    removeInput s id = s := by
  unfold removeInput
  rw [if_neg (by omega)]

theorem handleCalculation_strict_ok_raw (s : LedgerState) (q : ℚ)
    (h : sumStrict (s.inputs.map AmountEntry.value) = Except.ok q) :
    Strict.handleCalculation s =
      { s with
        error := ""
        result := { number := formatNumberDeDE ((q / (s.inputs.length : ℚ)) * (5 / 100)),
                    currency := "€" }
        isResultVisible := true } := by
  unfold Strict.handleCalculation
  rw [h]

theorem handleCalculation_strict_total (s : LedgerState) :
    ((Strict.handleCalculation s).isResultVisible = true ∧
      (Strict.handleCalculation s).error = "") ∨
    ((Strict.handleCalculation s).isResultVisible = false ∧
      ((Strict.handleCalculation s).error = msgMissing ∨
       (Strict.handleCalculation s).error = msgInvalid)) := by
  rcases hsum : sumStrict (s.inputs.map AmountEntry.value) with e | q
  · cases e
    · rw [handleCalculation_strict_missing s hsum]
      exact Or.inr ⟨rfl, Or.inl rfl⟩
    · rw [handleCalculation_strict_invalid s hsum]
      exact Or.inr ⟨rfl, Or.inr rfl⟩
  · rw [handleCalculation_strict_ok_raw s q hsum]
    exact Or.inl ⟨rfl, rfl⟩

/-! ### Evaluating the parser on concrete digit strings -/

theorem jsParseFloat_digits_only (s : String) (l : List Char) (hd : s.data = l)
    (hall : ∀ c ∈ l, isDigitC c = true) (hne : l ≠ []) :
    jsParseFloat s = some ((l.foldl (fun a c => 10 * a + digitVal c) 0 : ℕ) : ℚ) := by
  obtain ⟨c, t, rfl⟩ := List.exists_cons_of_ne_nil hne
  have hcd : isDigitC c = true := hall c (List.mem_cons_self c t)
  have hnows : ∀ x ∈ c :: t, isWs x = false :=
    fun x hx => not_isWs_of_isDigitC (hall x hx)
  have hdrop : List.dropWhile isWs (c :: t) = c :: t := dropWhile_none_eq_self _ hnows
  have hsign : parseSign (c :: t) = (false, c :: t) := parseSign_cons_digit hcd t
  have htake : takeDigits (c :: t) 0 0 =
      ((c :: t).foldl (fun a c => 10 * a + digitVal c) 0, 0 + (c :: t).length,
        ([] : List Char)) := by
    have := takeDigits_append (c :: t) [] hall trivial 0 0
    rw [List.append_nil] at this
    exact this
  have hun : parseUnsigned (c :: t) =
      some ((((c :: t).foldl (fun a c => 10 * a + digitVal c) 0 : ℕ) : ℚ),
        ([] : List Char)) := by
    simp only [parseUnsigned, htake]
    simp only [Nat.zero_add, List.length_cons]
    rw [if_neg (by omega)]
  unfold jsParseFloat
  rw [hd, hdrop]
  simp only [hsign, hun]
  simp only [parseExp, Bool.false_eq_true, if_false, zpow_zero, mul_one]

theorem sanitize_data_digits (v : String) (hall : ∀ c ∈ v.data, isDigitC c = true) :
    (sanitize v).data = v.data := by
  simp only [sanitize]
  rw [replaceFirst_not_mem]
  intro hm
  have := hall ',' hm
  simp [isDigitC] at this

theorem isBlank_digits (v : String) (hall : ∀ c ∈ v.data, isDigitC c = true)
    (hne : v.data ≠ []) : isBlank v = false := by
  obtain ⟨c, t, hct⟩ := List.exists_cons_of_ne_nil hne
  have hcd : isDigitC c = true := hall c (by rw [hct]; exact List.mem_cons_self c t)
  simp only [isBlank, hct, List.all_cons]
  rw [not_isWs_of_isDigitC hcd]
  rfl

theorem jsParseFloat_sanitize_digits (v : String)
    (hall : ∀ c ∈ v.data, isDigitC c = true) (hne : v.data ≠ []) :
    jsParseFloat (sanitize v) =
      some ((v.data.foldl (fun a c => 10 * a + digitVal c) 0 : ℕ) : ℚ) :=
  jsParseFloat_digits_only (sanitize v) v.data (sanitize_data_digits v hall) hall hne

theorem entryOkB_digits (v : String) (hall : ∀ c ∈ v.data, isDigitC c = true)
    (hne : v.data ≠ []) : entryOkB v = true := by
  unfold entryOkB
  rw [jsParseFloat_sanitize_digits v hall hne]
  simp

theorem parsedVal_digits (v : String) (hall : ∀ c ∈ v.data, isDigitC c = true)
    (hne : v.data ≠ []) :
    parsedVal v = ((v.data.foldl (fun a c => 10 * a + digitVal c) 0 : ℕ) : ℚ) := by
  unfold parsedVal
  rw [isBlank_digits v hall hne]
  simp [jsParseFloat_sanitize_digits v hall hne]

theorem intlRound2_eval (x : ℚ) (n : ℤ) (h0 : 0 ≤ x) (h1 : (n : ℚ) ≤ 100 * x + 1 / 2)
    (h2 : 100 * x + 1 / 2 < n + 1) : intlRound2 x = n := by
  unfold intlRound2
  rw [if_neg (not_lt.mpr h0), Int.floor_eq_iff]
  exact ⟨h1, by exact_mod_cast h2⟩

/-! ### Claim theorems -/

/-- C1: for every state whose entries all parse (after comma-to-period
conversion) to non-negative numbers — in the strict variant this also
rules out blanks, since a blank string never parses — and whose non-blank
entries all so parse in the lenient variant, calculate() succeeds: it
clears the error, makes the result visible and publishes
(sum of parsed values / entryCount) * 0.05, formatted with exactly two
fraction digits and currency "€", where entryCount counts every entry
including skipped blanks. -/
theorem calculate_publishes_average_tax (s : LedgerState) :
    ((∀ e ∈ s.inputs, entryOkB e.value = true) →
      (Strict.handleCalculation s).result =
          { number := formatNumberDeDE (taxResult s), currency := "€" } ∧
        (Strict.handleCalculation s).error = "" ∧
        (Strict.handleCalculation s).isResultVisible = true ∧
        hasTwoFractionDigits (Strict.handleCalculation s).result.number = true) ∧
    ((∀ e ∈ s.inputs, isBlank e.value = true ∨ entryOkB e.value = true) →
      (Lenient.handleCalculation s).result =
          { number := formatNumberDeDE (taxResult s), currency := "€" } ∧
        (Lenient.handleCalculation s).error = "" ∧
        (Lenient.handleCalculation s).isResultVisible = true ∧
        hasTwoFractionDigits (Lenient.handleCalculation s).result.number = true) := by
  constructor
  · intro hok
    rw [handleCalculation_strict_ok s hok]
    exact ⟨rfl, rfl, rfl, hasTwoFractionDigits_formatNumberDeDE _⟩
  · intro hok
    rw [handleCalculation_lenient_ok s hok]
    exact ⟨rfl, rfl, rfl, hasTwoFractionDigits_formatNumberDeDE _⟩

/-- C1 (witness): on the entries "10" and "20" the strict calculation
publishes "0,75" with currency "€" — 5% of the average (10+20)/2. -/
theorem calculate_publishes_average_tax_witness :
    (Strict.handleCalculation exampleTenTwenty).result =
        { number := "0,75", currency := "€" } ∧
      (Strict.handleCalculation exampleTenTwenty).error = "" ∧
      (Strict.handleCalculation exampleTenTwenty).isResultVisible = true := by
  have hok : ∀ e ∈ exampleTenTwenty.inputs, entryOkB e.value = true := by
    intro e he
    simp only [exampleTenTwenty, List.mem_cons, List.not_mem_nil, or_false] at he
    rcases he with rfl | rfl
    · exact entryOkB_digits "10" (by decide) (by decide)
    · exact entryOkB_digits "20" (by decide) (by decide)
  have h := (calculate_publishes_average_tax exampleTenTwenty).1 hok
  have h10 : parsedVal "10" = (10 : ℚ) := by
    rw [parsedVal_digits "10" (by decide) (by decide),
      show ("10".data.foldl (fun a c => 10 * a + digitVal c) 0) = 10 from by decide]
    norm_num
  have h20 : parsedVal "20" = (20 : ℚ) := by
    rw [parsedVal_digits "20" (by decide) (by decide),
      show ("20".data.foldl (fun a c => 10 * a + digitVal c) 0) = 20 from by decide]
    norm_num
  have htax : taxResult exampleTenTwenty = 3 / 4 := by
    unfold taxResult exampleTenTwenty
    simp only [List.map_cons, List.map_nil, List.sum_cons, List.sum_nil,
      List.length_cons, List.length_nil]
    rw [h10, h20]
    norm_num
  have hfmt : formatNumberDeDE (3 / 4 : ℚ) = "0,75" := by
    have hround : intlRound2 (3 / 4 : ℚ) = 75 :=
      intlRound2_eval _ 75 (by norm_num) (by norm_num) (by norm_num)
    unfold formatNumberDeDE
    rw [hround]
    decide
  refine ⟨?_, h.2.1, h.2.2.1⟩
  rw [h.1, htax, hfmt]

/-- C2 (counterexample): from the reachable state with entries ["." , ""],
which contains a blank entry, the strict calculate() fails with the
invalid-amount error — not the missing-amount error — because the
unparseable "." precedes the blank. -/
theorem calculate_blank_after_invalid_gives_invalid :
    (∃ e ∈ (runS initState [SOp.add, SOp.change 1 "."]).inputs,
        isBlank e.value = true) ∧
      (runS initState [SOp.add, SOp.change 1 ".", SOp.calculate]).error = msgInvalid ∧
      msgInvalid ≠ msgMissing := by
  refine ⟨by decide, by decide, by decide⟩

/-- C2 (amended): in the strict variant, for every entry list containing a
blank entry such that every entry BEFORE the first such blank parses to a
non-negative number, calculate() fails with the missing-amount error,
hides the result, and terminates without mutating the stored result or
the entries. -/
theorem calculate_missing_amount_at_first_blank (s : LedgerState)
    (l1 : List AmountEntry) (e : AmountEntry) (l2 : List AmountEntry)
    (hsplit : s.inputs = l1 ++ e :: l2)
    (h1 : ∀ x ∈ l1, entryOkB x.value = true)
    (h2 : isBlank e.value = true) :
    (Strict.handleCalculation s).error = msgMissing ∧
      (Strict.handleCalculation s).isResultVisible = false ∧
      (Strict.handleCalculation s).result = s.result ∧
      (Strict.handleCalculation s).inputs = s.inputs := by
  have hsum : sumStrict (s.inputs.map AmountEntry.value) =
      Except.error CalcError.missingAmount := by
    rw [hsplit]
    simp only [List.map_append, List.map_cons]
    exact sumStrict_missing (l1.map AmountEntry.value) e.value (l2.map AmountEntry.value)
      (fun v hv => by
        obtain ⟨x, hx, rfl⟩ := List.mem_map.mp hv
        exact h1 x hx) h2
  rw [handleCalculation_strict_missing s hsum]
  exact ⟨rfl, rfl, rfl, rfl⟩

/-- C2 (witness): on the spec example ["5", ""] the strict calculation
fails with the missing-amount error and leaves the result untouched. -/
theorem calculate_missing_amount_at_first_blank_witness :
    (Strict.handleCalculation exampleFiveBlank).error = msgMissing ∧
      (Strict.handleCalculation exampleFiveBlank).result = exampleFiveBlank.result := by
  have h := calculate_missing_amount_at_first_blank exampleFiveBlank
    [{ id := 1, value := "5" }] { id := 2, value := "" } [] (by decide)
    (by
      intro x hx
      simp only [List.mem_singleton] at hx
      rw [hx]
      exact entryOkB_digits "5" (by decide) (by decide)) (by decide)
  exact ⟨h.1, h.2.2.1⟩

/-- C3: in the lenient variant, blank entries contribute zero to the sum
and are not validated, while the divisor entryCount still counts them:
whenever every non-blank entry parses to a non-negative number the
calculation succeeds with (sum / entryCount) * 0.05 formatted; on the
example entries ["5", ""] the value is (5/2)*0.05 = 0.125 and the
two-fraction-digit display under the half-away-from-zero rounding of the
formatter is "0,13". -/
theorem lenient_blanks_contribute_zero (s : LedgerState) :
    ((∀ e ∈ s.inputs, isBlank e.value = true ∨ entryOkB e.value = true) →
      (Lenient.handleCalculation s).result =
          { number := formatNumberDeDE (taxResult s), currency := "€" } ∧
        (Lenient.handleCalculation s).error = "" ∧
        (Lenient.handleCalculation s).isResultVisible = true) ∧
    taxResult exampleFiveBlank = 1 / 8 ∧
    (Lenient.handleCalculation exampleFiveBlank).result.number = "0,13" := by
  have h5 : parsedVal "5" = (5 : ℚ) := by
    rw [parsedVal_digits "5" (by decide) (by decide),
      show ("5".data.foldl (fun a c => 10 * a + digitVal c) 0) = 5 from by decide]
    norm_num
  have h0 : parsedVal "" = 0 := parsedVal_of_blank "" (by decide)
  have htax : taxResult exampleFiveBlank = 1 / 8 := by
    unfold taxResult exampleFiveBlank
    simp only [List.map_cons, List.map_nil, List.sum_cons, List.sum_nil,
      List.length_cons, List.length_nil]
    rw [h5, h0]
    norm_num
  have hok5 : ∀ e ∈ exampleFiveBlank.inputs,
      isBlank e.value = true ∨ entryOkB e.value = true := by
    intro e he
    simp only [exampleFiveBlank, List.mem_cons, List.not_mem_nil, or_false] at he
    rcases he with rfl | rfl
    · exact Or.inr (entryOkB_digits "5" (by decide) (by decide))
    · exact Or.inl (by decide)
  refine ⟨?_, htax, ?_⟩
  · intro hok
    rw [handleCalculation_lenient_ok s hok]
    exact ⟨rfl, rfl, rfl⟩
  · rw [handleCalculation_lenient_ok exampleFiveBlank hok5]
    show formatNumberDeDE (taxResult exampleFiveBlank) = "0,13"
    rw [htax]
    have hround : intlRound2 (1 / 8 : ℚ) = 13 :=
      intlRound2_eval _ 13 (by norm_num) (by norm_num) (by norm_num)
    unfold formatNumberDeDE
    rw [hround]
    decide

/-- C3 (witness): the general lenient clause applied to the example state
["5", ""]: the calculation succeeds and publishes the formatted value. -/
theorem lenient_blanks_contribute_zero_witness :
    (Lenient.handleCalculation exampleFiveBlank).result =
        { number := formatNumberDeDE (taxResult exampleFiveBlank), currency := "€" } ∧
      (Lenient.handleCalculation exampleFiveBlank).error = "" ∧
      (Lenient.handleCalculation exampleFiveBlank).isResultVisible = true := by
  apply (lenient_blanks_contribute_zero exampleFiveBlank).1
  intro e he
  simp only [exampleFiveBlank, List.mem_cons, List.not_mem_nil, or_false] at he
  rcases he with rfl | rfl
  · exact Or.inr (entryOkB_digits "5" (by decide) (by decide))
  · exact Or.inl (by decide)

/-- C4 (counterexample): from the reachable state with entries ["", "."],
which contains a non-blank entry that does not parse, the strict
calculate() fails with the missing-amount error — not the invalid-amount
error — because the blank first entry preempts the walk. -/
theorem calculate_invalid_after_blank_gives_missing :
    (∃ e ∈ (runS initState [SOp.add, SOp.change 2 "."]).inputs,
        isBlank e.value = false ∧ entryOkB e.value = false) ∧
      (runS initState [SOp.add, SOp.change 2 ".", SOp.calculate]).error = msgMissing ∧
      msgMissing ≠ msgInvalid := by
  refine ⟨by decide, by decide, by decide⟩

/-- C4 (amended): calculate() fails with the invalid-amount error at the
first non-blank entry that fails to parse or parses negative, reporting a
single message and leaving the stored result and the entries unchanged —
unconditionally in the lenient variant, and in the strict variant
provided every entry before that first invalid entry parses to a
non-negative number (so no earlier blank raises MissingAmount first). -/
theorem calculate_invalid_amount_at_first_invalid :
    (∀ s : LedgerState,
      (∃ e ∈ s.inputs, isBlank e.value = false ∧ entryOkB e.value = false) →
      (Lenient.handleCalculation s).error = msgInvalid ∧
        (Lenient.handleCalculation s).isResultVisible = false ∧
        (Lenient.handleCalculation s).result = s.result ∧
        (Lenient.handleCalculation s).inputs = s.inputs) ∧
    (∀ (s : LedgerState) (l1 : List AmountEntry) (e : AmountEntry)
        (l2 : List AmountEntry), s.inputs = l1 ++ e :: l2 →
      (∀ x ∈ l1, entryOkB x.value = true) →
      isBlank e.value = false → entryOkB e.value = false →
      (Strict.handleCalculation s).error = msgInvalid ∧
        (Strict.handleCalculation s).isResultVisible = false ∧
        (Strict.handleCalculation s).result = s.result ∧
        (Strict.handleCalculation s).inputs = s.inputs) := by
  constructor
  · intro s hex
    have hsum : sumLenient (s.inputs.map AmountEntry.value) =
        Except.error CalcError.invalidAmount := by
      apply sumLenient_invalid
      obtain ⟨e, he, hb, ho⟩ := hex
      exact ⟨e.value, List.mem_map_of_mem AmountEntry.value he, hb, ho⟩
    rw [handleCalculation_lenient_invalid s hsum]
    exact ⟨rfl, rfl, rfl, rfl⟩
  · intro s l1 e l2 hsplit h1 h2 h3
    have hsum : sumStrict (s.inputs.map AmountEntry.value) =
        Except.error CalcError.invalidAmount := by
      rw [hsplit]
      simp only [List.map_append, List.map_cons]
      exact sumStrict_invalid (l1.map AmountEntry.value) e.value
        (l2.map AmountEntry.value)
        (fun v hv => by
          obtain ⟨x, hx, rfl⟩ := List.mem_map.mp hv
          exact h1 x hx) h2 h3
    rw [handleCalculation_strict_invalid s hsum]
    exact ⟨rfl, rfl, rfl, rfl⟩

/-- C4 (witness): on the spec example ["abc"] the lenient calculation
fails with the invalid-amount error and leaves the result untouched. -/
theorem calculate_invalid_amount_at_first_invalid_witness :
    (Lenient.handleCalculation exampleAbc).error = msgInvalid ∧
      (Lenient.handleCalculation exampleAbc).result = exampleAbc.result := by
  have h := (calculate_invalid_amount_at_first_invalid).1 exampleAbc (by decide)
  exact ⟨h.1, h.2.2.1⟩

/-- C5 (counterexample): the lenient variant of updateEntry stores the
non-matching text "abc" unchanged into the entry, so the claim that every
updateEntry call rejects non-matching text is false for the code as a
whole. -/
theorem updateEntry_lenient_stores_nonmatching :
    matchesAmountPattern "abc" = false ∧
      (Lenient.handleInputChange initState 1 "abc").inputs =
        [{ id := 1, value := "abc" }] := by
  refine ⟨by decide, by decide⟩

/-- C5 (amended): in the strict variant updateEntry stores rawText exactly
when it matches the decimal-input pattern and leaves every entry text
unchanged otherwise; the lenient variant of updateEntry stores rawText
unconditionally. -/
theorem updateEntry_pattern_gate (s : LedgerState) (id : Nat) (v : String) :
    (matchesAmountPattern v = false →
      (Strict.handleInputChange s id v).inputs = s.inputs) ∧
    (matchesAmountPattern v = true →
      (Strict.handleInputChange s id v).inputs =
        s.inputs.map (fun i => if i.id == id then { i with value := v } else i)) ∧
    (Lenient.handleInputChange s id v).inputs =
      s.inputs.map (fun i => if i.id == id then { i with value := v } else i) := by
  refine ⟨?_, ?_, rfl⟩
  · intro h
    unfold Strict.handleInputChange
    simp [h]
  · intro h
    unfold Strict.handleInputChange
    simp [h]

/-- C5 (witness): the strict variant rejects "abc" — the entry list of the
initial state is unchanged. -/
theorem updateEntry_pattern_gate_witness :
    (Strict.handleInputChange initState 1 "abc").inputs = initState.inputs :=
  (updateEntry_pattern_gate initState 1 "abc").1 (by decide)

/-- C6: removeEntry on a ledger with exactly one entry is a no-op (the
whole state is unchanged), and no sequence of public operations — in
either variant — ever brings the entry list to zero entries. -/
theorem removeEntry_never_empties :
    (∀ (s : LedgerState) (id : Nat), s.inputs.length = 1 → removeInput s id = s) ∧
    (∀ ops : List SOp, (runS initState ops).inputs ≠ []) ∧
    (∀ ops : List LOp, (runL initState ops).inputs ≠ []) :=
  ⟨fun s id h => removeInput_single s id h,
    fun ops => (ledgerInv_runS ops initState ledgerInv_init).1,
    fun ops => (ledgerInv_runL ops initState ledgerInv_init).1⟩

/-- C6 (witness): removing the sole entry of the initial state leaves the
state unchanged. -/
theorem removeEntry_never_empties_witness : removeInput initState 1 = initState :=
  removeEntry_never_empties.1 initState 1 (by decide)

/-- C7: normalizeOnCommit is idempotent — on every reachable strict-variant
state, blurring the same entry twice equals blurring it once; moreover a
blank entry is left untouched (the state is unchanged) and a non-blank
parseable entry text is rewritten as the parsed number fixed to two
decimal places with a comma separator (toFixed(2) with '.'→','). -/
theorem normalizeOnCommit_idempotent :
    (∀ (ops : List SOp) (id : Nat),
      runS initState (ops ++ [SOp.blur id, SOp.blur id]) =
        runS initState (ops ++ [SOp.blur id])) ∧
    (∀ (s : LedgerState) (id : Nat) (input : AmountEntry),
      s.inputs.find? (fun i => i.id == id) = some input →
      isBlank input.value = true → Strict.handleInputBlur s id = s) ∧
    (∀ (s : LedgerState) (id : Nat) (input : AmountEntry) (q : ℚ),
      s.inputs.find? (fun i => i.id == id) = some input →
      isBlank input.value = false →
      jsParseFloat (sanitize input.value) = some q →
      (Strict.handleInputBlur s id).inputs = s.inputs.map (fun i =>
        if i.id == id then
          { i with value := String.mk (replaceFirst (toFixed2 q) '.' ',') }
        else i)) := by
  refine ⟨?_, ?_, ?_⟩
  · intro ops id
    rw [runS_append, runS_append]
    exact blur_idem (runS initState ops) id
      (validTexts_runS ops initState validTexts_init)
  · intro s id input hfind hb
    exact handleInputBlur_blank s id input hfind hb
  · intro s id input q hfind hb hp
    rw [handleInputBlur_parse s id input q hfind hb hp]

/-- C7 (witness): blurring the blank initial entry leaves the initial
state unchanged. -/
theorem normalizeOnCommit_idempotent_witness :
    Strict.handleInputBlur initState 1 = initState :=
  normalizeOnCommit_idempotent.2.1 initState 1 { id := 1, value := "" }
    (by decide) (by decide)

/-- C8 (counterexample): reset() sets the id counter back to 2, so the
event sequence [addEntry, reset, addEntry] assigns the id 2 twice — entry
ids ARE reused across a reset. -/
theorem addEntry_id_reused_after_reset :
    assignedIds initState [SOp.add, SOp.reset, SOp.add] = [2, 2] ∧
      ¬ (assignedIds initState [SOp.add, SOp.reset, SOp.add]).Nodup := by
  refine ⟨by decide, by decide⟩

/-- C8 (amended): across every reset-free sequence of public operations,
each addEntry call assigns an id never held by any previously created
entry: the initial id 1 together with all assigned ids is duplicate-free. -/
theorem addEntry_ids_fresh_without_reset (ops : List SOp) (h : SOp.reset ∉ ops) :
    (1 :: assignedIds initState ops).Nodup := by
  obtain ⟨hn, hlb⟩ := assignedIds_nodup_lb ops initState h
  refine List.nodup_cons.mpr ⟨fun hx => ?_, hn⟩
  have h2 := hlb _ hx
  rw [show initState.nextId = 2 from rfl] at h2
  omega

/-- C8 (witness): two successive addEntry calls assign fresh ids. -/
theorem addEntry_ids_fresh_without_reset_witness :
    (1 :: assignedIds initState [SOp.add, SOp.add]).Nodup :=
  addEntry_ids_fresh_without_reset [SOp.add, SOp.add] (by decide)

/-- C9: after any sequence of public operations, reset() leaves the ledger
in exactly the initial configuration: a single blank entry with id 1, the
id counter at 2, no error, and the hidden zero-value result
{ number := "0.00", currency := "€" }. -/
theorem reset_restores_initial_state (ops : List SOp) :
    runS initState (ops ++ [SOp.reset]) =
      { inputs := [{ id := 1, value := "" }]
        nextId := 2
        result := { number := "0.00", currency := "€" }
        error := ""
        isResultVisible := false } := by
  rw [runS_append]
  rfl

/-- C10: every state reachable from the initial single-entry state has a
non-empty entry list — so the division sum / entryCount inside
calculate() never divides by zero — and calculate() is total on such
states: it either publishes a result (visible, no error) or sets exactly
one of the two error kinds (hidden result). -/
theorem calculate_total_on_reachable (ops : List SOp) :
    0 < (runS initState ops).inputs.length ∧
      (((Strict.handleCalculation (runS initState ops)).isResultVisible = true ∧
          (Strict.handleCalculation (runS initState ops)).error = "") ∨
        ((Strict.handleCalculation (runS initState ops)).isResultVisible = false ∧
          ((Strict.handleCalculation (runS initState ops)).error = msgMissing ∨
            (Strict.handleCalculation (runS initState ops)).error = msgInvalid))) :=
  ⟨List.length_pos.mpr (ledgerInv_runS ops initState ledgerInv_init).1,
    handleCalculation_strict_total (runS initState ops)⟩
